import Mathlib

/-!
Verification of the reachability-based path-parameterization engine
(`toppra/algorithm/reachabilitybased/reachability_algorithm.py`) and the
solver-wrapper base class (`toppra/solverwrapper/solverwrapper.py`).

The engine manipulates numpy float arrays whose entries are either ordinary
numbers or the NaN infeasibility sentinel.  We model a scalar as a rational
number or NaN (`FVal`); IEEE comparison semantics (every comparison involving
NaN is false) are what the engine's sentinel probing relies on, and they are
captured exactly by `FVal.flt`.  The stage oracle (`solve_stagewise_optim`)
is abstract in the source (the base class raises NotImplementedError and the
concrete backends are external), so it is modelled as a function-valued field
of `Oracle`; the per-session setup/teardown calls and every stage solve are
recorded in an explicit event trace returned alongside each entry point's
value, which is the standard explicit-state reading of the stateful calls.
-/

/-- A numpy float64 scalar as used by the engine: a rational number or the
NaN sentinel that the solver wrappers use to signal infeasibility. -/
inductive FVal where
  | nan : FVal
  | num : ℚ → FVal
deriving DecidableEq

namespace FVal

/-- Mirror of `np.isnan` on one scalar. -/
def isnan : FVal → Bool
  | nan => true
  | num _ => false

/-- IEEE addition restricted to what the engine needs: NaN propagates. -/
def add : FVal → FVal → FVal
  | num a, num b => num (a + b)
  | _, _ => nan

/-- IEEE multiplication restricted to what the engine needs: NaN propagates. -/
def mul : FVal → FVal → FVal
  | num a, num b => num (a * b)
  | _, _ => nan

/-- Unary negation; NaN propagates. -/
def neg : FVal → FVal
  | num a => num (-a)
  | nan => nan

/-- IEEE `<`: any comparison involving NaN is false.  This is the semantics
of the Python `<` used on numpy float64 values throughout the engine. -/
def flt : FVal → FVal → Bool
  | num a, num b => decide (a < b)
  | _, _ => false

end FVal

/-- Python's built-in two-argument `min`: returns the second argument exactly
when the second compares strictly below the first (`b if b < a else a`). -/
def pymin (a b : FVal) : FVal := if FVal.flt b a then b else a

/-- Python's built-in two-argument `max`: returns the second argument exactly
when it compares strictly above the first (`b if b > a else a`). -/
def pymax (a b : FVal) : FVal := if FVal.flt a b then b else a

/-- One observable interaction of the engine with its solver wrapper:
`setup_solver`, one `solve_stagewise_optim` call at a stage index, or
`close_solver`. -/
inductive Event where
  | setup : Event
  | solve : ℕ → Event
  | teardown : Event
deriving DecidableEq

/-- Outcome of running a Python callable: either an exception propagated
(assert failure / NotImplementedError) or a returned value. -/
inductive PyResult (α : Type) where
  | raised : PyResult α
  | ok : α → PyResult α
deriving DecidableEq

/-- The solver wrapper as seen by `ReachabilityAlgorithm`: the read-only
accessors `get_no_stages`, `get_no_vars`, `get_deltas`, and the abstract
stage solve `solve_stagewise_optim(i, H, g, x_min, x_max, x_next_min,
x_next_max)`.  The source treats the solve as a black box returning an
array of length `nV` (all NaN on infeasibility); sessions are reset by
`setup_solver`/`close_solver`, so within one computation the solve is a
function of its arguments. -/
structure Oracle where
  N : ℕ
  nV : ℕ
  deltas : ℕ → ℚ
  solve : ℕ → Option (List (List FVal)) → List FVal →
      Option FVal → Option FVal → Option FVal → Option FVal → List FVal

/-- Modelled from the spec: the module `toppra.constants` is not under src/.
The spec describes `SMALL` as "a small numeric tolerance" used by the
start-velocity admission test; every property proved here relies only on
`0 < SMALL`, so the concrete magnitude is a free modelling choice. -/
def SMALL : ℚ := 1 / 100

/-- Modelled from the spec: the module `toppra.constants` is not under src/.
The spec describes `LARGE` as a "large sentinel magnitude" standing in for
unbounded variable bounds in the feasible-set sweep. -/
def LARGE : ℚ := 10 ^ 12

/-- Mirror of `np.zeros(n)` for a one-dimensional float vector. -/
def np_zeros (n : ℕ) : List FVal := List.replicate n (FVal.num 0)

/-- Mirror of `np.zeros((n, n))`, the zero quadratic-cost matrix `Hzero`. -/
def Hzero (n : ℕ) : List (List FVal) := List.replicate n (np_zeros n)

/-- Elementwise negation of a cost vector (`-g` in the source). -/
def negVec (g : List FVal) : List FVal := g.map FVal.neg

/-- Read entry `i` of a solver result array.  The engine only ever indexes
within the documented result length `nV`; indexing is modelled totally with
the undefined value as default. -/
def ent (l : List FVal) (i : ℕ) : FVal := l.getD i FVal.nan

/-- Default pair used when reading a stage interval from an array. -/
def dflt : FVal × FVal := (FVal.nan, FVal.nan)

/-- The linear cost `g_lower` of `compute_feasible_sets`:
`np.zeros(nV)` with `g[0] = 1e-9` (tie-break on the control) and `g[1] = 1`
(minimize the squared velocity). -/
def g_lower (nV : ℕ) : List FVal :=
  ((np_zeros nV).set 0 (FVal.num (1 / 10 ^ 9))).set 1 (FVal.num 1)

/-- The clamp applied to a stage interval's lower bound before an array is
returned: `if lo < 0: lo = 0`.  Under IEEE comparison `NaN < 0` is false, so
a NaN lower bound is left untouched. -/
def clampLower (x : FVal) : FVal := if FVal.flt x (FVal.num 0) then FVal.num 0 else x

/-- The minimizing stage solve of `compute_feasible_sets` at stage `i`
(component 1 of the result array is the squared velocity `x`). -/
def feasSolveLo (o : Oracle) (i : ℕ) : FVal :=
  ent (o.solve i (some (Hzero o.nV)) (g_lower o.nV)
        (some (FVal.num (-LARGE))) (some (FVal.num LARGE))
        (some (FVal.num (-LARGE))) (some (FVal.num LARGE))) 1

/-- The maximizing stage solve of `compute_feasible_sets` at stage `i`. -/
def feasSolveHi (o : Oracle) (i : ℕ) : FVal :=
  ent (o.solve i (some (Hzero o.nV)) (negVec (g_lower o.nV))
        (some (FVal.num (-LARGE))) (some (FVal.num LARGE))
        (some (FVal.num (-LARGE))) (some (FVal.num LARGE))) 1

/-- Mirror of `ReachabilityAlgorithm.compute_feasible_sets`: for each grid
point two stage solves (minimize, then maximize `x`), then the lower bounds
are clamped to zero; returned with the session trace
(setup, two solves per grid point, teardown). -/
def compute_feasible_sets (o : Oracle) : List (FVal × FVal) × List Event :=
  (((List.range (o.N + 1)).map (fun i => (feasSolveLo o i, feasSolveHi o i))).map
      (fun p => (clampLower p.1, p.2)),
   Event.setup :: ((List.range (o.N + 1)).flatMap
      (fun i => [Event.solve i, Event.solve i])) ++ [Event.teardown])

/-- The linear cost `g_upper` of `_one_step`: `np.zeros(nV)` with
`g[0] = 1e-9` and `g[1] = -1` (maximize the squared velocity). -/
def g_upper (nV : ℕ) : List FVal :=
  ((np_zeros nV).set 0 (FVal.num (1 / 10 ^ 9))).set 1 (FVal.num (-1))

/-- Mirror of `ReachabilityAlgorithm._one_step`: if the next interval has a
NaN end or the index is out of range, return the NaN pair and issue no
solve; otherwise issue the maximizing and minimizing stage solves with the
next-state bounds set to `K_next` and return `[x_lower, x_upper]` together
with the two solve events. -/
def one_step (o : Oracle) (i : ℕ) (K_next : FVal × FVal) :
    (FVal × FVal) × List Event :=
  if K_next.1.isnan || K_next.2.isnan || decide (o.N < i) then
    ((FVal.nan, FVal.nan), [])
  else
    let x_upper := ent (o.solve i none (g_upper o.nV) none none
        (some K_next.1) (some K_next.2)) 1
    let x_lower := ent (o.solve i none (negVec (g_upper o.nV)) none none
        (some K_next.1) (some K_next.2)) 1
    ((x_lower, x_upper), [Event.solve i, Event.solve i])

/-- The backward recursion of `compute_controllable_sets`, unrolled from the
terminal stage: `ccs_core o sdmin sdmax m` is the list of intervals
`[K[N-m], …, K[N]]` together with the solve events issued while computing
them (in execution order, i.e. from stage `N-1` down).  Each new entry is
`_one_step` applied to the previous head with its lower bound clamped. -/
def ccs_core (o : Oracle) (sdmin sdmax : ℚ) : ℕ → List (FVal × FVal) × List Event
  | 0 => ([(FVal.num (sdmin ^ 2), FVal.num (sdmax ^ 2))], [])
  | m + 1 =>
    let prev := ccs_core o sdmin sdmax m
    let step := one_step o (o.N - (m + 1)) (prev.1.headD dflt)
    ((clampLower step.1.1, step.1.2) :: prev.1, prev.2 ++ step.2)

/-- Mirror of `ReachabilityAlgorithm.compute_controllable_sets`: asserts
`sdmin <= sdmax and 0 <= sdmin` (assert failure modelled as `raised`), pins
`K[N] = [sdmin², sdmax²]`, runs the backward recursion inside one solver
session, and returns the array `[K[0], …, K[N]]` with the session trace. -/
def compute_controllable_sets (o : Oracle) (sdmin sdmax : ℚ) :
    PyResult (List (FVal × FVal)) × List Event :=
  if sdmin ≤ sdmax ∧ 0 ≤ sdmin then
    let core := ccs_core o sdmin sdmax o.N
    (.ok core.1, Event.setup :: core.2 ++ [Event.teardown])
  else (.raised, [])

/-- Python's `optim_res[0] is None` identity test, applied to an entry of the
solver result array.  `solve_stagewise_optim` is documented (solverwrapper.py)
to return a numpy float array whose entries are NaN on failure; a numpy
float64 value, NaN included, is never the `None` object, so the identity test
is false on every such entry. -/
def floatIsNone (_x : FVal) : Bool := false

/-- Modelled from the spec: `_forward_step` is implemented by the concrete
algorithm subclass (e.g. TOPPRA), which is not under src/.  Per spec §4.5 it
issues one stage solve at `i` with the current state pinned
(`x_min = x_max = x`), next-state bounds set to `K_next`, and a linear cost
selecting the maximal admissible control; per the oracle contract (§4.2 and
solverwrapper.py) the result is the solver's array, all NaN on
infeasibility, and the call never raises. -/
def forward_step (o : Oracle) (i : ℕ) (x : FVal) (K_next : FVal × FVal) :
    List FVal :=
  o.solve i none ((np_zeros o.nV).set 0 (FVal.num (-1)))
    (some x) (some x) (some K_next.1) (some K_next.2)

/-- Accumulated state of the forward pass: the acceleration entries `us`,
the squared-velocity entries `xs[i+1..]`, the auxiliary rows `v_vec`, and
the solve events issued. -/
structure FwdOut where
  us : List FVal
  xs : List FVal
  vs : List (List FVal)
  tr : List Event
deriving DecidableEq

/-- The forward loop of `compute_parameterization`, with the loop state
(current stage `i` and current squared velocity `xs[i]`) passed explicitly;
the first argument is the number of remaining stages.  On each iteration one
forward stage solve is issued; if its first entry `is None` the three
entries are marked undefined (numpy stores `None` into a float array as
NaN), otherwise `us[i]` is the returned control and
`xs[i+1] = min(K[i+1].hi, max(K[i+1].lo, xs[i] + 2·delta_i·us[i]))`. -/
def fwd_core (o : Oracle) (K : List (FVal × FVal)) :
    ℕ → ℕ → FVal → FwdOut
  | 0, _, _ => ⟨[], [], [], []⟩
  | rem + 1, i, x =>
    let K_next := K.getD (i + 1) dflt
    let optim_res := forward_step o i x K_next
    if floatIsNone (ent optim_res 0) then
      let rest := fwd_core o K rem (i + 1) FVal.nan
      ⟨FVal.nan :: rest.us, FVal.nan :: rest.xs,
       List.replicate (o.nV - 2) FVal.nan :: rest.vs,
       Event.solve i :: rest.tr⟩
    else
      let u := ent optim_res 0
      let x1 := pymin K_next.2 (pymax K_next.1
          (x.add ((FVal.num (2 * o.deltas i)).mul u)))
      let rest := fwd_core o K rem (i + 1) x1
      ⟨u :: rest.us, x1 :: rest.xs, optim_res.drop 2 :: rest.vs,
       Event.solve i :: rest.tr⟩

/-- The value returned by `compute_parameterization`.  The source returns
`(sdd_vec, sd_vec, v_vec)` with `sd_vec = np.sqrt(xs)`; square roots of the
rational scalar model are not rational, so the embedding keeps the
squared-velocity array `xs` itself (`np.sqrt` maps NaN to NaN and a
non-negative number to a number, so definedness of each entry is the same
for `xs` and `sd_vec`). -/
structure ParamTriple where
  sdd_vec : List FVal
  xs : List FVal
  v_vec : List (List FVal)
deriving DecidableEq

/-- Mirror of `ReachabilityAlgorithm.compute_parameterization`: assert both
inputs non-negative, compute the controllable sets with the terminal bound
collapsed to `sd_end`, return the all-empty sentinel (`ok none`) if any
interval end is NaN or `x_start = sd_start²` lies outside `K[0]` by more
than `SMALL`; otherwise run the forward pass in its own solver session. -/
def compute_parameterization (o : Oracle) (sd_start sd_end : ℚ) :
    PyResult (Option ParamTriple) × List Event :=
  if 0 ≤ sd_end ∧ 0 ≤ sd_start then
    let ccs := compute_controllable_sets o sd_end sd_end
    match ccs.1 with
    | .raised => (.raised, ccs.2)
    | .ok K =>
      if K.any (fun p => p.1.isnan || p.2.isnan) then (.ok none, ccs.2)
      else
        let x_start : FVal := FVal.num (sd_start ^ 2)
        let K0 := K.getD 0 dflt
        if FVal.flt (x_start.add (FVal.num SMALL)) K0.1 ||
            FVal.flt (K0.2.add (FVal.num SMALL)) x_start then
          (.ok none, ccs.2)
        else
          let fwd := fwd_core o K o.N 0 x_start
          (.ok (some ⟨fwd.us, x_start :: fwd.xs, fwd.vs⟩),
           ccs.2 ++ [Event.setup] ++ fwd.tr ++ [Event.teardown])
  else (.raised, [])

/-- The path as seen by `SolverWrapper.__init__`: only its declared domain
interval `get_path_interval() = [lo, hi]` is consumed. -/
structure PathModel where
  lo : ℚ
  hi : ℚ

/-- The attributes of a successfully constructed `SolverWrapper` that the
claims are about: the stored grid, the stage count `N = len(grid) - 1`, and
the step sizes `deltas`.  The per-constraint parameter bundles are opaque
external results (out of scope per the spec) and are not modelled. -/
structure SWState where
  path_discretization : List ℚ
  N : ℕ
  deltas : List ℚ
deriving DecidableEq

/-- Mirror of `SolverWrapper.__init__`: store the grid, compute
`N = len(grid) - 1` and `deltas[i] = grid[i+1] - grid[i]`, then assert that
the grid's first and last samples equal the path's declared interval and
that the grid is strictly increasing.  Any failing assert (or an index
error on an empty grid) raises. -/
def mk_solver_wrapper (path : PathModel) (grid : List ℚ) : PyResult SWState :=
  let N := grid.length - 1
  let deltas := List.zipWith (fun a b => b - a) grid (grid.drop 1)
  match grid.head?, grid.getLast? with
  | some first, some lastv =>
    if path.lo = first then
      if path.hi = lastv then
        if List.Chain' (· < ·) grid then .ok ⟨grid, N, deltas⟩
        else .raised
      else .raised
    else .raised
  | _, _ => .raised

/-- Mirror of `toppra.constraint.ConstraintType` as consumed by
`ReachabilityAlgorithm.__init__`: only equality with `CanonicalConic` is
tested. -/
inductive ConstraintType where
  | Unknown : ConstraintType
  | CanonicalLinear : ConstraintType
  | CanonicalConic : ConstraintType
deriving DecidableEq

/-- The four concrete solver-wrapper classes the engine can instantiate. -/
inductive BackendKind where
  | cvxpyWrapper : BackendKind
  | qpOASESSolverWrapper : BackendKind
  | hotqpOASESSolverWrapper : BackendKind
  | ecosWrapper : BackendKind
deriving DecidableEq

/-- Python's `str.lower()` on a solver name, modelled as character-wise
ASCII lowercasing (the engine only compares against ASCII names). -/
def py_lower (s : String) : String := String.mk (s.data.map Char.toLower)

/-- The final name-to-class dispatch of `ReachabilityAlgorithm.__init__`
(lines 66-75): lower-cased name matched against the four known wrappers,
`NotImplementedError` (raised) otherwise. -/
def dispatch_solver (s : String) : PyResult BackendKind :=
  if py_lower s = "cvxpy" then .ok .cvxpyWrapper
  else if py_lower s = "qpoases" then .ok .qpOASESSolverWrapper
  else if py_lower s = "hotqpoases" then .ok .hotqpOASESSolverWrapper
  else if py_lower s = "ecos" then .ok .ecosWrapper
  else .raised

/-- Backends able to solve conic programs, per the engine's own acceptance
assert ("Problem has conic constraints, solver {} is not suitable"): the
cvxpy and ecos wrappers. -/
def conic_capable : BackendKind → Bool
  | .cvxpyWrapper => true
  | .ecosWrapper => true
  | _ => false

/-- Mirror of the backend-selection part of `ReachabilityAlgorithm.__init__`:
scan the constraints for a conic one; with no name supplied pick "ecos" for
a conic problem and "qpOASES" otherwise; with a name supplied assert it is
among the conic-capable names (conic case) or among all four supported
names (non-conic case); finally dispatch the name to a wrapper class. -/
def reachability_select (constraint_list : List ConstraintType)
    (solver_wrapper : Option String) : PyResult BackendKind :=
  let has_conic := constraint_list.any
      (fun c => decide (c = ConstraintType.CanonicalConic))
  match solver_wrapper with
  | none => dispatch_solver (if has_conic then "ecos" else "qpOASES")
  | some s =>
    if has_conic then
      if py_lower s = "cvxpy" ∨ py_lower s = "ecos" then dispatch_solver s
      else .raised
    else
      if py_lower s = "cvxpy" ∨ py_lower s = "qpoases" ∨ py_lower s = "ecos" ∨
          py_lower s = "hotqpoases" then dispatch_solver s
      else .raised

/-- One transition of the session-discipline automaton: the state is
`some b` with `b` true inside an open session, and `none` once the
discipline has been violated (a solve or teardown outside a session, a
nested setup, or any event after a violation). -/
def bracketStep : Option Bool → Event → Option Bool
  | some false, Event.setup => some true
  | some true, Event.solve _ => some true
  | some true, Event.teardown => some false
  | _, _ => none

/-- A trace observes the scoped-session discipline: starting outside a
session, every solve happens inside an open session, sessions are opened by
setup and closed by teardown without nesting, and the trace ends with every
session closed. -/
def wellBracketed (tr : List Event) : Bool :=
  tr.foldl bracketStep (some false) == some false

/-- Concrete oracle used by witnesses: one stage, one auxiliary variable,
every solve returns the well-defined vector `[u, x, v] = [0, 1, 0]`. -/
def oTriv : Oracle :=
  ⟨1, 3, fun _ => 1, fun _ _ _ _ _ _ _ => [FVal.num 0, FVal.num 1, FVal.num 0]⟩

/-- Concrete oracle whose stage solves all fail (all-NaN result arrays). -/
def oNan : Oracle :=
  ⟨2, 2, fun _ => 1, fun _ _ _ _ _ _ _ => [FVal.nan, FVal.nan]⟩

/-- Concrete oracle whose backward solves succeed (so `K` is numeric
everywhere) but whose forward solves — recognizable by their pinned state
bounds `x_min ≠ None` — return the NaN infeasibility sentinel. -/
def oC1 : Oracle :=
  ⟨1, 3, fun _ => 1, fun _ _ _ x_min _ _ _ =>
    match x_min with
    | some _ => [FVal.nan, FVal.nan, FVal.nan]
    | none => [FVal.num 0, FVal.num 1, FVal.num 0]⟩

/-- Concrete oracle whose backward solves report the squared velocity
`1 + SMALL/2` at stage 0 (so `K[0]` sits just above 1, within the
admission tolerance of a start at 1) and whose forward solves return the
control 0. -/
def oC2 : Oracle :=
  ⟨1, 2, fun _ => 1, fun _ _ _ x_min _ _ _ =>
    match x_min with
    | some _ => [FVal.num 0, FVal.num 1]
    | none => [FVal.num 0, FVal.num (1 + 1 / 200)]⟩

/-- Concrete oracle whose backward solves at stage 1 report a larger
squared velocity for the minimizing solve (recognizable by its cost entry
`g[1] = 1`) than for the maximizing one, so the recursion records the
inverted interval `K[1] = [2, 1]`; all other solves report 1 and the
forward solves return the control 0. -/
def oC2inv : Oracle :=
  ⟨2, 2, fun _ => 1, fun i _ g x_min _ _ _ =>
    match x_min with
    | some _ => [FVal.num 0, FVal.num 1]
    | none =>
      if i = 1 ∧ ent g 1 = FVal.num 1 then [FVal.num 0, FVal.num 2]
      else [FVal.num 0, FVal.num 1]⟩

theorem clampLower_nan_eq : clampLower FVal.nan = FVal.nan := rfl

theorem clampLower_isnan (x : FVal) : (clampLower x).isnan = x.isnan := by
  cases x with
  | nan => rfl
  | num q =>
    by_cases h : q < 0 <;> simp [clampLower, FVal.flt, FVal.isnan, h]

theorem clampLower_num_nonneg (x : FVal) (q : ℚ) (h : clampLower x = FVal.num q) :
    0 ≤ q := by
  cases x with
  | nan => simp [clampLower, FVal.flt] at h
  | num r =>
    by_cases hr : r < 0 <;> simp [clampLower, FVal.flt, hr] at h <;> subst h <;>
      linarith

theorem pymin_pymax_mem (l h : ℚ) (z : FVal) :
    ∃ q : ℚ, pymin (FVal.num h) (pymax (FVal.num l) z) = FVal.num q ∧
      min l h ≤ q ∧ q ≤ h := by
  cases z with
  | nan =>
    by_cases hc : l < h
    · exact ⟨l, by simp [pymin, pymax, FVal.flt, hc], min_le_left l h,
        le_of_lt hc⟩
    · exact ⟨h, by simp [pymin, pymax, FVal.flt, hc], min_le_right l h,
        le_refl h⟩
  | num r =>
    by_cases h1 : l < r
    · by_cases h2 : r < h
      · exact ⟨r, by simp [pymin, pymax, FVal.flt, h1, h2],
          le_trans (min_le_left l h) (le_of_lt h1), le_of_lt h2⟩
      · exact ⟨h, by simp [pymin, pymax, FVal.flt, h1, h2], min_le_right l h,
          le_refl h⟩
    · by_cases h2 : l < h
      · exact ⟨l, by simp [pymin, pymax, FVal.flt, h1, h2], min_le_left l h,
          le_of_lt h2⟩
      · exact ⟨h, by simp [pymin, pymax, FVal.flt, h1, h2], min_le_right l h,
          le_refl h⟩

theorem ccs_core_len (o : Oracle) (a b : ℚ) (m : ℕ) :
    ((ccs_core o a b m).1).length = m + 1 := by
  induction m with
  | zero => rfl
  | succ m ih => simp [ccs_core, ih]

theorem ccs_core_getD_succ (o : Oracle) (a b : ℚ) (m j : ℕ) :
    ((ccs_core o a b (m + 1)).1).getD (j + 1) dflt =
      ((ccs_core o a b m).1).getD j dflt := by
  simp [ccs_core]

theorem ccs_core_getD_shift (o : Oracle) (a b : ℚ) :
    ∀ j m, j ≤ m →
      ((ccs_core o a b m).1).getD j dflt =
        ((ccs_core o a b (m - j)).1).getD 0 dflt := by
  intro j
  induction j with
  | zero => intro m _; rfl
  | succ j ih =>
    intro m hm
    obtain ⟨m', rfl⟩ : ∃ m', m = m' + 1 := ⟨m - 1, by omega⟩
    have h3 : m' + 1 - (j + 1) = m' - j := by omega
    rw [ccs_core_getD_succ, ih m' (by omega), h3]

theorem ccs_core_headD (o : Oracle) (a b : ℚ) (m : ℕ) :
    ((ccs_core o a b m).1).headD dflt = ((ccs_core o a b m).1).getD 0 dflt := by
  cases m <;> simp [ccs_core]

theorem ccs_core_step (o : Oracle) (a b : ℚ) (i : ℕ) (hi : i < o.N) :
    ((ccs_core o a b o.N).1).getD i dflt =
      (clampLower
          (one_step o i (((ccs_core o a b o.N).1).getD (i + 1) dflt)).1.1,
        (one_step o i (((ccs_core o a b o.N).1).getD (i + 1) dflt)).1.2) := by
  have h1 := ccs_core_getD_shift o a b i o.N (le_of_lt hi)
  have h2 := ccs_core_getD_shift o a b (i + 1) o.N hi
  obtain ⟨m', hm⟩ : ∃ m', o.N - i = m' + 1 := ⟨o.N - i - 1, by omega⟩
  have hm' : o.N - (i + 1) = m' := by omega
  have hstage : o.N - (m' + 1) = i := by omega
  rw [h1, h2, hm, hm']
  simp only [ccs_core, ccs_core_headD, hstage, List.getD_cons_zero]

theorem ccs_core_terminal (o : Oracle) (a b : ℚ) :
    ((ccs_core o a b o.N).1).getD o.N dflt =
      (FVal.num (a ^ 2), FVal.num (b ^ 2)) := by
  rw [ccs_core_getD_shift o a b o.N o.N le_rfl]
  simp [ccs_core]

theorem ccs_core_lower_nonneg (o : Oracle) (a b : ℚ) (m : ℕ) :
    ∀ p ∈ (ccs_core o a b m).1, ∀ q : ℚ, p.1 = FVal.num q → 0 ≤ q := by
  induction m with
  | zero =>
    intro p hp q hq
    simp only [ccs_core, List.mem_singleton] at hp
    subst hp
    simp only [FVal.num.injEq] at hq
    subst hq
    exact sq_nonneg a
  | succ m ih =>
    intro p hp q hq
    simp only [ccs_core, List.mem_cons] at hp
    rcases hp with hp | hp
    · subst hp
      exact clampLower_num_nonneg _ q hq
    · exact ih p hp q hq

theorem one_step_events (o : Oracle) (i : ℕ) (K_next : FVal × FVal) :
    ∀ e ∈ (one_step o i K_next).2, e = Event.solve i := by
  intro e he
  unfold one_step at he
  split at he
  · simp at he
  · simp only [List.mem_cons, List.not_mem_nil, or_false] at he
    rcases he with he | he <;> exact he

theorem ccs_core_events (o : Oracle) (a b : ℚ) (m : ℕ) :
    ∀ e ∈ (ccs_core o a b m).2, ∃ j, e = Event.solve j := by
  induction m with
  | zero => intro e he; simp [ccs_core] at he
  | succ m ih =>
    intro e he
    simp only [ccs_core, List.mem_append] at he
    rcases he with he | he
    · exact ih e he
    · exact ⟨o.N - (m + 1), one_step_events o _ _ e he⟩

theorem ccs_core_solve_origin (o : Oracle) (a b : ℚ) (m j : ℕ)
    (h : Event.solve j ∈ (ccs_core o a b m).2) :
    ∃ k, k < m ∧ j = o.N - (k + 1) ∧
      (one_step o (o.N - (k + 1)) (((ccs_core o a b k).1).headD dflt)).2 ≠ [] := by
  induction m with
  | zero => simp [ccs_core] at h
  | succ m ih =>
    simp only [ccs_core, List.mem_append] at h
    rcases h with h | h
    · obtain ⟨k, hk, hj, hne⟩ := ih h
      exact ⟨k, by omega, hj, hne⟩
    · have hj : Event.solve j = Event.solve (o.N - (m + 1)) :=
        one_step_events o _ _ _ h
      have hj' : j = o.N - (m + 1) := by injection hj
      refine ⟨m, by omega, hj', ?_⟩
      intro hnil
      rw [hnil] at h
      simp at h

theorem fwd_core_events (o : Oracle) (K : List (FVal × FVal)) :
    ∀ rem i x, ∀ e ∈ (fwd_core o K rem i x).tr, ∃ j, e = Event.solve j := by
  intro rem
  induction rem with
  | zero => intro i x e he; simp [fwd_core] at he
  | succ rem ih =>
    intro i x e he
    simp only [fwd_core, floatIsNone, Bool.false_eq_true, if_false,
      List.mem_cons] at he
    rcases he with he | he
    · exact ⟨i, he⟩
    · exact ih (i + 1) _ e he

theorem fwd_core_xs_getD (o : Oracle) (K : List (FVal × FVal)) :
    ∀ rem i x j, j < rem →
      ∀ l h : ℚ, K.getD (i + j + 1) dflt = (FVal.num l, FVal.num h) →
      ∃ q : ℚ, ((fwd_core o K rem i x).xs).getD j FVal.nan = FVal.num q ∧
        min l h ≤ q ∧ q ≤ h := by
  intro rem
  induction rem with
  | zero => intro i x j hj; omega
  | succ rem ih =>
    intro i x j hj l h hK
    cases j with
    | zero =>
      simp only [Nat.add_zero] at hK
      simp only [fwd_core, floatIsNone, Bool.false_eq_true, if_false, hK,
        List.getD_cons_zero]
      exact pymin_pymax_mem l h _
    | succ j =>
      have hidx : i + 1 + j + 1 = i + (j + 1) + 1 := by omega
      simp only [fwd_core, floatIsNone, Bool.false_eq_true, if_false,
        List.getD_cons_succ]
      exact ih (i + 1) _ j (by omega) l h (by rw [hidx]; exact hK)

theorem foldl_bracket_solves (s : List Event)
    (h : ∀ e ∈ s, ∃ j, e = Event.solve j) :
    s.foldl bracketStep (some true) = some true := by
  induction s with
  | nil => rfl
  | cons a s ih =>
    obtain ⟨j, rfl⟩ := h a (List.mem_cons_self a s)
    exact ih (fun e he => h e (List.mem_cons_of_mem _ he))

theorem foldl_bracket_session (s : List Event)
    (h : ∀ e ∈ s, ∃ j, e = Event.solve j) :
    (Event.setup :: s ++ [Event.teardown]).foldl bracketStep (some false) =
      some false := by
  have h1 : (Event.setup :: s ++ [Event.teardown]).foldl bracketStep (some false) =
      (s ++ [Event.teardown]).foldl bracketStep (some true) := rfl
  rw [h1, List.foldl_append, foldl_bracket_solves s h]
  rfl

theorem feas_trace_foldl (o : Oracle) :
    ((compute_feasible_sets o).2).foldl bracketStep (some false) = some false := by
  apply foldl_bracket_session
  intro e he
  simp only [List.mem_flatMap, List.mem_range] at he
  obtain ⟨i, _, hi⟩ := he
  simp only [List.mem_cons, List.not_mem_nil, or_false] at hi
  rcases hi with rfl | rfl <;> exact ⟨i, rfl⟩

theorem ccs_trace_foldl (o : Oracle) (a b : ℚ) :
    ((compute_controllable_sets o a b).2).foldl bracketStep (some false) =
      some false := by
  simp only [compute_controllable_sets]
  split
  · exact foldl_bracket_session _ (ccs_core_events o a b o.N)
  · rfl

theorem param_trace_foldl (o : Oracle) (s e : ℚ) :
    ((compute_parameterization o s e).2).foldl bracketStep (some false) =
      some false := by
  have hccs := ccs_trace_foldl o e e
  simp only [compute_parameterization]
  split
  · rcases hK : (compute_controllable_sets o e e).1 with _ | K <;>
      simp only [hK]
    · exact hccs
    · split
      · exact hccs
      · split
        · exact hccs
        · rw [List.append_assoc, List.append_assoc, List.foldl_append, hccs]
          rw [← List.append_assoc]
          exact foldl_bracket_session _ (fwd_core_events o K o.N 0 _)
  · rfl

theorem ccs_ok_inv (o : Oracle) (a b : ℚ) (K : List (FVal × FVal))
    (hK : (compute_controllable_sets o a b).1 = .ok K) :
    (a ≤ b ∧ 0 ≤ a) ∧ K = (ccs_core o a b o.N).1 ∧
      (compute_controllable_sets o a b).2 =
        Event.setup :: (ccs_core o a b o.N).2 ++ [Event.teardown] := by
  by_cases hc : a ≤ b ∧ 0 ≤ a
  · refine ⟨hc, ?_, ?_⟩
    · simp only [compute_controllable_sets, if_pos hc] at hK
      injection hK with h
      exact h.symm
    · simp only [compute_controllable_sets, if_pos hc]
  · simp only [compute_controllable_sets, if_neg hc] at hK
    exact absurd hK (by simp)

theorem param_eq (o : Oracle) (s e : ℚ) (hs : 0 ≤ s) (he : 0 ≤ e) :
    compute_parameterization o s e =
      (if (ccs_core o e e o.N).1.any (fun p => p.1.isnan || p.2.isnan) then
        (.ok none, Event.setup :: (ccs_core o e e o.N).2 ++ [Event.teardown])
      else if FVal.flt (FVal.num (s ^ 2 + SMALL))
            ((ccs_core o e e o.N).1.getD 0 dflt).1 ||
          FVal.flt (((ccs_core o e e o.N).1.getD 0 dflt).2.add (FVal.num SMALL))
            (FVal.num (s ^ 2)) then
        (.ok none, Event.setup :: (ccs_core o e e o.N).2 ++ [Event.teardown])
      else
        (.ok (some
            ⟨(fwd_core o (ccs_core o e e o.N).1 o.N 0 (FVal.num (s ^ 2))).us,
             FVal.num (s ^ 2) ::
               (fwd_core o (ccs_core o e e o.N).1 o.N 0 (FVal.num (s ^ 2))).xs,
             (fwd_core o (ccs_core o e e o.N).1 o.N 0 (FVal.num (s ^ 2))).vs⟩),
         (Event.setup :: (ccs_core o e e o.N).2 ++ [Event.teardown]) ++
           [Event.setup] ++
           (fwd_core o (ccs_core o e e o.N).1 o.N 0 (FVal.num (s ^ 2))).tr ++
           [Event.teardown])) := by
  have hce : e ≤ e ∧ 0 ≤ e := ⟨le_refl e, he⟩
  have hcs : 0 ≤ e ∧ 0 ≤ s := ⟨he, hs⟩
  have hccs : compute_controllable_sets o e e =
      (.ok (ccs_core o e e o.N).1,
       Event.setup :: (ccs_core o e e o.N).2 ++ [Event.teardown]) := by
    simp only [compute_controllable_sets]
    rw [if_pos hce]
  simp only [compute_parameterization, hccs, FVal.add]
  rw [if_pos hcs]

/-- C9: in each of the three engine entry points, every oracle solve happens
after the session setup and before the matching teardown, and the session is
closed on every exit path — the whole interaction trace observes the scoped
session discipline checked by `wellBracketed`. -/
theorem c9_scoped_sessions (o : Oracle) (sdmin sdmax sd_start sd_end : ℚ) :
    wellBracketed (compute_feasible_sets o).2 = true ∧
    wellBracketed (compute_controllable_sets o sdmin sdmax).2 = true ∧
    wellBracketed (compute_parameterization o sd_start sd_end).2 = true := by
  refine ⟨?_, ?_, ?_⟩ <;> simp only [wellBracketed, beq_iff_eq]
  · exact feas_trace_foldl o
  · exact ccs_trace_foldl o sdmin sdmax
  · exact param_trace_foldl o sd_start sd_end

/-- C5: for every `v ≥ 0`, `compute_controllable_sets(v, v)` succeeds and
its last entry `K[N]` is exactly `[v², v²]`; neither the backward recursion
nor the clamp touches it. -/
theorem c5_terminal_pinning (o : Oracle) (v : ℚ) (hv : 0 ≤ v) :
    ∃ K, (compute_controllable_sets o v v).1 = .ok K ∧
      K.length = o.N + 1 ∧
      K.getD o.N dflt = (FVal.num (v ^ 2), FVal.num (v ^ 2)) := by
  have hcv : v ≤ v ∧ 0 ≤ v := ⟨le_refl v, hv⟩
  refine ⟨(ccs_core o v v o.N).1, ?_, ccs_core_len o v v o.N,
    ccs_core_terminal o v v⟩
  simp only [compute_controllable_sets]
  rw [if_pos hcv]

theorem c5_witness :
    (0 : ℚ) ≤ 1 ∧
      ∃ K, (compute_controllable_sets oTriv 1 1).1 = .ok K ∧
        K.length = oTriv.N + 1 ∧
        K.getD oTriv.N dflt = (FVal.num (1 ^ 2), FVal.num (1 ^ 2)) :=
  ⟨by norm_num, c5_terminal_pinning oTriv 1 (by norm_num)⟩

/-- C4: in a returned controllable-set array, emptiness propagates backward
(`K[i+1]` empty forces `K[i]` empty) and no stage solve is ever issued for a
stage whose successor interval is empty. -/
theorem c4_monotone_propagation (o : Oracle) (a b : ℚ) (K : List (FVal × FVal))
    (hK : (compute_controllable_sets o a b).1 = .ok K) (i : ℕ) (hi : i < o.N)
    (hn : (K.getD (i + 1) dflt).1.isnan = true ∨
      (K.getD (i + 1) dflt).2.isnan = true) :
    K.getD i dflt = (FVal.nan, FVal.nan) ∧
      Event.solve i ∉ (compute_controllable_sets o a b).2 := by
  obtain ⟨hc, hKeq, htr⟩ := ccs_ok_inv o a b K hK
  subst hKeq
  have hguard : ((((ccs_core o a b o.N).1.getD (i + 1) dflt).1.isnan ||
      ((ccs_core o a b o.N).1.getD (i + 1) dflt).2.isnan) ||
      decide (o.N < i)) = true := by
    rcases hn with hn | hn <;> simp only [hn, Bool.true_or, Bool.or_true]
  have hstep_nil : (one_step o i ((ccs_core o a b o.N).1.getD (i + 1) dflt)).1 =
        (FVal.nan, FVal.nan) ∧
      (one_step o i ((ccs_core o a b o.N).1.getD (i + 1) dflt)).2 = [] := by
    constructor <;> · unfold one_step; rw [if_pos hguard]
  constructor
  · rw [ccs_core_step o a b i hi, hstep_nil.1]
    simp [clampLower_nan_eq]
  · intro hmem
    rw [htr] at hmem
    simp only [List.cons_append, List.mem_cons, List.mem_append,
      List.mem_singleton] at hmem
    rcases hmem with hmem | hmem | hmem
    · exact Event.noConfusion hmem
    · obtain ⟨k, hk, hik, hne⟩ := ccs_core_solve_origin o a b o.N i hmem
      apply hne
      have hki : o.N - (k + 1) = i := by omega
      have h0 : ((ccs_core o a b k).1).headD dflt =
          ((ccs_core o a b o.N).1).getD (i + 1) dflt := by
        rw [ccs_core_headD, ccs_core_getD_shift o a b (i + 1) o.N hi]
        have : o.N - (i + 1) = k := by omega
        rw [this]
      rw [hki, h0]
      exact hstep_nil.2
    · simp at hmem

theorem c4_witness :
    ∃ K, (compute_controllable_sets oNan 1 1).1 = .ok K ∧
      (K.getD 1 dflt).1.isnan = true ∧
      K.getD 0 dflt = (FVal.nan, FVal.nan) ∧
      Event.solve 0 ∉ (compute_controllable_sets oNan 1 1).2 := by
  have hok : (compute_controllable_sets oNan 1 1).1 =
      .ok (ccs_core oNan 1 1 oNan.N).1 := by decide
  have hnan : (((ccs_core oNan 1 1 oNan.N).1).getD 1 dflt).1.isnan = true := by
    decide
  have := c4_monotone_propagation oNan 1 1 (ccs_core oNan 1 1 oNan.N).1 hok 0
    (by decide) (Or.inl hnan)
  exact ⟨(ccs_core oNan 1 1 oNan.N).1, hok, hnan, this.1, this.2⟩

/-- C6: every interval returned by the feasible-set sweep or by the
controllable-set recursion whose lower bound is a number has that lower
bound non-negative (negative stage-solve results are clamped to zero, and
the pinned terminal entry is a square). -/
theorem c6_lower_bounds_nonneg (o : Oracle) (a b : ℚ) (K : List (FVal × FVal))
    (hK : (compute_controllable_sets o a b).1 = .ok K) :
    (∀ p ∈ (compute_feasible_sets o).1, ∀ q : ℚ, p.1 = FVal.num q → 0 ≤ q) ∧
    (∀ p ∈ K, ∀ q : ℚ, p.1 = FVal.num q → 0 ≤ q) := by
  obtain ⟨hc, hKeq, -⟩ := ccs_ok_inv o a b K hK
  subst hKeq
  constructor
  · intro p hp q hq
    simp only [compute_feasible_sets, List.mem_map] at hp
    obtain ⟨p', -, rfl⟩ := hp
    exact clampLower_num_nonneg _ q hq
  · exact ccs_core_lower_nonneg o a b o.N

theorem c6_witness :
    (compute_controllable_sets oTriv 0 1).1 = .ok (ccs_core oTriv 0 1 oTriv.N).1 ∧
      ((∀ p ∈ (compute_feasible_sets oTriv).1, ∀ q : ℚ,
          p.1 = FVal.num q → 0 ≤ q) ∧
        (∀ p ∈ (ccs_core oTriv 0 1 oTriv.N).1, ∀ q : ℚ,
          p.1 = FVal.num q → 0 ≤ q)) := by
  have hok : (compute_controllable_sets oTriv 0 1).1 =
      .ok (ccs_core oTriv 0 1 oTriv.N).1 := by decide
  exact ⟨hok, c6_lower_bounds_nonneg oTriv 0 1 _ hok⟩

/-- C10: the lower-bound clamp maps the NaN sentinel to itself (because
`NaN < 0` is false), so in both `compute_feasible_sets` and
`compute_controllable_sets` an empty stage stays the empty sentinel after
clamping and is never turned into a numeric interval. -/
theorem c10_clamp_preserves_empty (o : Oracle) (a b : ℚ)
    (K : List (FVal × FVal))
    (hK : (compute_controllable_sets o a b).1 = .ok K) (i : ℕ) :
    clampLower FVal.nan = FVal.nan ∧
    ((feasSolveLo o i).isnan = true → i < o.N + 1 →
      (((compute_feasible_sets o).1).getD i dflt).1 = FVal.nan) ∧
    (i < o.N → (one_step o i (K.getD (i + 1) dflt)).1.1.isnan = true →
      (K.getD i dflt).1 = FVal.nan) := by
  obtain ⟨hc, hKeq, -⟩ := ccs_ok_inv o a b K hK
  subst hKeq
  refine ⟨rfl, ?_, ?_⟩
  · intro hnan hilen
    have hl1 : i < ((List.range (o.N + 1)).map
        (fun i => (feasSolveLo o i, feasSolveHi o i))).length := by
      simp [hilen]
    have hl2 : i < (((List.range (o.N + 1)).map
        (fun i => (feasSolveLo o i, feasSolveHi o i))).map
          (fun p => (clampLower p.1, p.2))).length := by
      simp [hilen]
    have hnan' : feasSolveLo o i = FVal.nan := by
      cases hfs : feasSolveLo o i with
      | nan => rfl
      | num q => rw [hfs] at hnan; exact absurd hnan (by simp [FVal.isnan])
    simp only [compute_feasible_sets, List.getD_eq_getElem _ _ hl2,
      List.getElem_map, List.getElem_range, hnan', clampLower_nan_eq]
  · intro hi hnan
    rw [ccs_core_step o a b i hi]
    cases hv : (one_step o i (((ccs_core o a b o.N).1).getD (i + 1) dflt)).1.1 with
    | nan => simp [clampLower_nan_eq]
    | num q => rw [hv] at hnan; exact absurd hnan (by simp [FVal.isnan])

theorem c10_witness :
    (compute_controllable_sets oNan 1 1).1 = .ok (ccs_core oNan 1 1 oNan.N).1 ∧
      (feasSolveLo oNan 0).isnan = true ∧
      (((compute_feasible_sets oNan).1).getD 0 dflt).1 = FVal.nan ∧
      ((ccs_core oNan 1 1 oNan.N).1.getD 1 dflt).1 = FVal.nan := by
  have hok : (compute_controllable_sets oNan 1 1).1 =
      .ok (ccs_core oNan 1 1 oNan.N).1 := by decide
  have h10 := c10_clamp_preserves_empty oNan 1 1 _ hok 0
  refine ⟨hok, by decide, h10.2.1 (by decide) (by decide), ?_⟩
  have h11 := c10_clamp_preserves_empty oNan 1 1 _ hok 1
  exact h11.2.2 (by decide) (by decide)


/-- C3: with non-negative inputs, `compute_parameterization` returns the
all-empty sentinel triple exactly when the controllable-set array computed
with terminal bounds `(sd_end, sd_end)` has a NaN interval end anywhere, or
`x_start = sd_start²` lies below `K[0].low` or above `K[0].high` by more
than the tolerance `SMALL`; and in that case its trace is exactly the
backward pass's trace — no forward-pass stage solve is issued. -/
theorem c3_sentinel_iff (o : Oracle) (sd_start sd_end : ℚ)
    (h1 : 0 ≤ sd_start) (h2 : 0 ≤ sd_end) :
    ∃ K, (compute_controllable_sets o sd_end sd_end).1 = .ok K ∧
      (((compute_parameterization o sd_start sd_end).1 = .ok none) ↔
        (K.any (fun p => p.1.isnan || p.2.isnan) = true ∨
         FVal.flt (FVal.num (sd_start ^ 2 + SMALL)) (K.getD 0 dflt).1 = true ∨
         FVal.flt ((K.getD 0 dflt).2.add (FVal.num SMALL))
           (FVal.num (sd_start ^ 2)) = true)) ∧
      ((compute_parameterization o sd_start sd_end).1 = .ok none →
        (compute_parameterization o sd_start sd_end).2 =
          (compute_controllable_sets o sd_end sd_end).2) := by
  have hce : sd_end ≤ sd_end ∧ 0 ≤ sd_end := ⟨le_refl _, h2⟩
  have hfst : (compute_controllable_sets o sd_end sd_end).1 =
      .ok (ccs_core o sd_end sd_end o.N).1 := by
    simp only [compute_controllable_sets]
    rw [if_pos hce]
  have hsnd : (compute_controllable_sets o sd_end sd_end).2 =
      Event.setup :: (ccs_core o sd_end sd_end o.N).2 ++ [Event.teardown] := by
    simp only [compute_controllable_sets]
    rw [if_pos hce]
  have hp := param_eq o sd_start sd_end h1 h2
  refine ⟨(ccs_core o sd_end sd_end o.N).1, hfst, ?_, ?_⟩
  · by_cases hA : (ccs_core o sd_end sd_end o.N).1.any
        (fun p => p.1.isnan || p.2.isnan) = true
    · rw [hp, if_pos hA]
      exact ⟨fun _ => Or.inl hA, fun _ => rfl⟩
    · by_cases hB : (FVal.flt (FVal.num (sd_start ^ 2 + SMALL))
            (((ccs_core o sd_end sd_end o.N).1.getD 0 dflt)).1 ||
          FVal.flt ((((ccs_core o sd_end sd_end o.N).1.getD 0 dflt)).2.add
            (FVal.num SMALL)) (FVal.num (sd_start ^ 2))) = true
      · rw [hp, if_neg hA, if_pos hB]
        refine ⟨fun _ => ?_, fun _ => rfl⟩
        have hB2 := hB
        rw [Bool.or_eq_true] at hB2
        rcases hB2 with h | h
        · exact Or.inr (Or.inl h)
        · exact Or.inr (Or.inr h)
      · rw [hp, if_neg hA, if_neg hB]
        constructor
        · intro h
          injection h with h2
          exact Option.noConfusion h2
        · intro h
          rcases h with h | h | h
          · exact absurd h hA
          · refine absurd ?_ hB
            rw [Bool.or_eq_true]
            exact Or.inl h
          · refine absurd ?_ hB
            rw [Bool.or_eq_true]
            exact Or.inr h
  · intro hnone
    rw [hp] at hnone ⊢
    rw [hsnd]
    by_cases hA : (ccs_core o sd_end sd_end o.N).1.any
        (fun p => p.1.isnan || p.2.isnan) = true
    · rw [if_pos hA]
    · by_cases hB : (FVal.flt (FVal.num (sd_start ^ 2 + SMALL))
            (((ccs_core o sd_end sd_end o.N).1.getD 0 dflt)).1 ||
          FVal.flt ((((ccs_core o sd_end sd_end o.N).1.getD 0 dflt)).2.add
            (FVal.num SMALL)) (FVal.num (sd_start ^ 2))) = true
      · rw [if_neg hA, if_pos hB]
      · rw [if_neg hA, if_neg hB] at hnone
        injection hnone with h2
        exact Option.noConfusion h2

theorem c3_witness :
    (0 : ℚ) ≤ 1 ∧
      (∃ K, (compute_controllable_sets oTriv 1 1).1 = .ok K ∧
        (((compute_parameterization oTriv 1 1).1 = .ok none) ↔
          (K.any (fun p => p.1.isnan || p.2.isnan) = true ∨
           FVal.flt (FVal.num ((1 : ℚ) ^ 2 + SMALL)) (K.getD 0 dflt).1 = true ∨
           FVal.flt ((K.getD 0 dflt).2.add (FVal.num SMALL))
             (FVal.num ((1 : ℚ) ^ 2)) = true)) ∧
        ((compute_parameterization oTriv 1 1).1 = .ok none →
          (compute_parameterization oTriv 1 1).2 =
            (compute_controllable_sets oTriv 1 1).2)) :=
  ⟨by norm_num, c3_sentinel_iff oTriv 1 1 (by norm_num) (by norm_num)⟩

/-- C2 counterexample, two concrete feasible queries on which the claimed
containment of every `xs[i]` in `K[i]` fails.  With oracle `oC2` and
`sd_start = sd_end = 1` the query is accepted (the arrays are returned),
the independently computed `K[0]` is the point interval at `1 + SMALL/2`,
and `xs[0] = sd_start² = 1` lies strictly below `K[0].low`: the start entry
escapes `K[0]` by up to the admission tolerance.  With oracle `oC2inv` the
backward solves record the inverted interior interval `K[1] = [2, 1]`, the
query is again accepted, and the clamp stores `xs[1] = K[1].high = 1`,
which lies strictly below `K[1].low = 2`, outside `[K[1].low, K[1].high]`. -/
theorem c2_counterexample :
    ((compute_controllable_sets oC2 1 1).1 =
        .ok [(FVal.num (201 / 200), FVal.num (201 / 200)),
             (FVal.num 1, FVal.num 1)] ∧
      (compute_parameterization oC2 1 1).1 =
        .ok (some ⟨[FVal.num 0], [FVal.num 1, FVal.num 1], [[]]⟩) ∧
      FVal.flt (FVal.num 1) (FVal.num (201 / 200)) = true) ∧
    ((compute_controllable_sets oC2inv 1 1).1 =
        .ok [(FVal.num 1, FVal.num 1), (FVal.num 2, FVal.num 1),
             (FVal.num 1, FVal.num 1)] ∧
      (compute_parameterization oC2inv 1 1).1 =
        .ok (some ⟨[FVal.num 0, FVal.num 0],
          [FVal.num 1, FVal.num 1, FVal.num 1], [[], []]⟩) ∧
      FVal.flt (FVal.num 1) (FVal.num 2) = true) := by
  with_unfolding_all decide

/-- C2 (amended): for a feasible query, `xs[0] = sd_start²` lies within
`K[0]` widened by the admission tolerance `SMALL` on each side, and for
every index `i ∈ [1, N]` the stored entry `xs[i]` is a number satisfying
`min(K[i].low, K[i].high) ≤ xs[i] ≤ K[i].high`: whenever `K[i]` is a proper
interval (lower ≤ upper) this is exactly containment in `K[i]`, and when
the backward solves produce an inverted interval the clamp pins
`xs[i] = K[i].high`. -/
theorem c2_amended_containment (o : Oracle) (sd_start sd_end : ℚ)
    (K : List (FVal × FVal)) (t : ParamTriple)
    (hK : (compute_controllable_sets o sd_end sd_end).1 = .ok K)
    (ht : (compute_parameterization o sd_start sd_end).1 = .ok (some t)) :
    t.xs.getD 0 FVal.nan = FVal.num (sd_start ^ 2) ∧
    (∀ l h : ℚ, K.getD 0 dflt = (FVal.num l, FVal.num h) →
      l ≤ sd_start ^ 2 + SMALL ∧ sd_start ^ 2 ≤ h + SMALL) ∧
    (∀ i, 1 ≤ i → i ≤ o.N → ∀ l h : ℚ,
      K.getD i dflt = (FVal.num l, FVal.num h) →
      ∃ q : ℚ, t.xs.getD i FVal.nan = FVal.num q ∧ min l h ≤ q ∧ q ≤ h) := by
  have hcs : 0 ≤ sd_end ∧ 0 ≤ sd_start := by
    by_contra hc
    simp only [compute_parameterization, if_neg hc] at ht
    exact absurd ht (by simp)
  obtain ⟨-, hKeq, -⟩ := ccs_ok_inv o sd_end sd_end K hK
  subst hKeq
  have hp := param_eq o sd_start sd_end hcs.2 hcs.1
  rw [hp] at ht
  by_cases hA : (ccs_core o sd_end sd_end o.N).1.any
      (fun p => p.1.isnan || p.2.isnan) = true
  · rw [if_pos hA] at ht
    injection ht with h2
    exact Option.noConfusion h2
  · by_cases hB : (FVal.flt (FVal.num (sd_start ^ 2 + SMALL))
          (((ccs_core o sd_end sd_end o.N).1.getD 0 dflt)).1 ||
        FVal.flt ((((ccs_core o sd_end sd_end o.N).1.getD 0 dflt)).2.add
          (FVal.num SMALL)) (FVal.num (sd_start ^ 2))) = true
    · rw [if_neg hA, if_pos hB] at ht
      injection ht with h2
      exact Option.noConfusion h2
    · rw [if_neg hA, if_neg hB] at ht
      injection ht with h2
      injection h2 with h3
      subst h3
      refine ⟨rfl, ?_, ?_⟩
      · intro l h hK0
        rw [hK0] at hB
        simp only [Bool.or_eq_true, not_or, FVal.add, FVal.flt,
          decide_eq_true_eq] at hB
        constructor <;> linarith [hB.1, hB.2]
      · intro i hi1 hiN l h hKi
        obtain ⟨j, rfl⟩ : ∃ j, i = j + 1 := ⟨i - 1, by omega⟩
        simp only [List.getD_cons_succ]
        apply fwd_core_xs_getD o _ o.N 0 _ j (by omega) l h ?_
        have hidx : 0 + j + 1 = j + 1 := by omega
        rw [hidx]
        exact hKi

theorem c2_witness :
    ∃ K t, (compute_controllable_sets oTriv 1 1).1 = .ok K ∧
      (compute_parameterization oTriv 1 1).1 = .ok (some t) ∧
      (t.xs.getD 0 FVal.nan = FVal.num ((1 : ℚ) ^ 2) ∧
        (∀ l h : ℚ, K.getD 0 dflt = (FVal.num l, FVal.num h) →
          l ≤ (1 : ℚ) ^ 2 + SMALL ∧ (1 : ℚ) ^ 2 ≤ h + SMALL) ∧
        (∀ i, 1 ≤ i → i ≤ oTriv.N → ∀ l h : ℚ,
          K.getD i dflt = (FVal.num l, FVal.num h) →
          ∃ q : ℚ, t.xs.getD i FVal.nan = FVal.num q ∧
            min l h ≤ q ∧ q ≤ h)) := by
  have hK : (compute_controllable_sets oTriv 1 1).1 =
      .ok [(FVal.num 1, FVal.num 1), (FVal.num 1, FVal.num 1)] := by decide
  have ht : (compute_parameterization oTriv 1 1).1 =
      .ok (some ⟨[FVal.num 0], [FVal.num 1, FVal.num 1], [[FVal.num 0]]⟩) := by
    with_unfolding_all decide
  exact ⟨_, _, hK, ht, c2_amended_containment oTriv 1 1 _ _ hK ht⟩

/-- C1 evaluated at the failing input: with oracle `oC1` all backward solves
succeed (`K = [[1,1],[1,1]]`) while the forward stage solve at stage 0 is
infeasible and returns the documented all-NaN sentinel array.  The returned
`us[0]` and `v_vec[0]` are NaN, but `xs[1]` is the numeric value `1`
(namely `K[1].low`), because the guard `optim_res[0] is None` is false for
a NaN float and the clamp `min(K_hi, max(K_lo, NaN))` evaluates to `K_lo`
under IEEE comparison — the loop does continue, but `xs[1]` silently holds
a numeric value instead of the undefined sentinel the claim requires. -/
theorem c1_divergence :
    (compute_controllable_sets oC1 1 1).1 =
      .ok [(FVal.num 1, FVal.num 1), (FVal.num 1, FVal.num 1)] ∧
    (∀ x ∈ forward_step oC1 0 (FVal.num 1) (FVal.num 1, FVal.num 1),
      x.isnan = true) ∧
    (compute_parameterization oC1 1 1).1 =
      .ok (some ⟨[FVal.nan], [FVal.num 1, FVal.num 1], [[FVal.nan]]⟩) := by
  with_unfolding_all decide

/-- C7: solver-wrapper construction raises immediately (assert, not a
sentinel) exactly when the grid's first sample differs from the path's
declared lower bound, the last sample differs from the declared upper
bound, or the grid is not strictly increasing; with a valid grid it
succeeds with `N = len(grid) - 1` and `deltas[i] = grid[i+1] - grid[i]`. -/
theorem c7_construction_validation (path : PathModel) (grid : List ℚ)
    (first lastv : ℚ) (h1 : grid.head? = some first)
    (h2 : grid.getLast? = some lastv) :
    (mk_solver_wrapper path grid = .raised ↔
      ¬(path.lo = first ∧ path.hi = lastv ∧ List.Chain' (· < ·) grid)) ∧
    (∀ st, mk_solver_wrapper path grid = .ok st →
      st.N = grid.length - 1 ∧
      ∀ i, i + 1 < grid.length →
        st.deltas.getD i 0 = grid.getD (i + 1) 0 - grid.getD i 0) := by
  constructor
  · simp only [mk_solver_wrapper, h1, h2]
    by_cases hcond : path.lo = first ∧ path.hi = lastv ∧
        List.Chain' (· < ·) grid
    · rw [if_pos hcond.1, if_pos hcond.2.1, if_pos hcond.2.2]
      simp [hcond.1, hcond.2.1, hcond.2.2]
    · constructor
      · intro _
        exact hcond
      · intro _
        by_cases ha : path.lo = first
        · by_cases hb : path.hi = lastv
          · have hcc : ¬ List.Chain' (· < ·) grid :=
              fun hch => hcond ⟨ha, hb, hch⟩
            rw [if_pos ha, if_pos hb, if_neg hcc]
          · rw [if_pos ha, if_neg hb]
        · rw [if_neg ha]
  · intro st hst
    simp only [mk_solver_wrapper, h1, h2] at hst
    by_cases ha : path.lo = first
    case neg =>
      rw [if_neg ha] at hst
      exact absurd hst (by simp)
    rw [if_pos ha] at hst
    by_cases hb : path.hi = lastv
    case neg =>
      rw [if_neg hb] at hst
      exact absurd hst (by simp)
    rw [if_pos hb] at hst
    by_cases hc : List.Chain' (· < ·) grid
    case neg =>
      rw [if_neg hc] at hst
      exact absurd hst (by simp)
    rw [if_pos hc] at hst
    injection hst with h3
    subst h3
    refine ⟨rfl, ?_⟩
    intro i hi
    have hzl : (List.zipWith (fun a b => b - a) grid (grid.drop 1)).length =
        grid.length - 1 := by
      simp [List.length_zipWith]
    have hi2 : i < (List.zipWith (fun a b => b - a) grid
        (grid.drop 1)).length := by
      omega
    have hi3 : i < grid.length := by omega
    have hi4 : i < (grid.drop 1).length := by
      simp [List.length_drop]
      omega
    rw [List.getD_eq_getElem _ _ hi2, List.getD_eq_getElem _ _ hi3,
      List.getD_eq_getElem _ _ hi]
    rw [List.getElem_zipWith]
    congr 1
    rw [List.getElem_drop]
    congr 1
    omega

theorem c7_witness :
    ([(0 : ℚ), 1, 2].head? = some 0) ∧
    ((mk_solver_wrapper (PathModel.mk 0 2) [0, 1, 2] = .raised ↔
      ¬((PathModel.mk (0 : ℚ) 2).lo = 0 ∧ (PathModel.mk (0 : ℚ) 2).hi = 2 ∧
        List.Chain' (· < ·) [(0 : ℚ), 1, 2])) ∧
     (∀ st, mk_solver_wrapper (PathModel.mk 0 2) [0, 1, 2] = .ok st →
        st.N = [(0 : ℚ), 1, 2].length - 1 ∧
        ∀ i, i + 1 < [(0 : ℚ), 1, 2].length →
          st.deltas.getD i 0 =
            [(0 : ℚ), 1, 2].getD (i + 1) 0 - [(0 : ℚ), 1, 2].getD i 0)) :=
  ⟨rfl, c7_construction_validation (PathModel.mk 0 2) [0, 1, 2] 0 2 rfl rfl⟩

/-- C8: backend selection honors the conic flag: with a conic constraint
present, a named backend is accepted only if it is conic-capable (the cvxpy
or ecos wrapper) and automatic selection picks the conic-capable ecos
wrapper; with no conic constraint, every supported backend name is accepted
and automatic selection picks the quadratic-programming (qpOASES)
wrapper. -/
theorem c8_backend_selection (constraint_list : List ConstraintType) :
    (constraint_list.any
        (fun c => decide (c = ConstraintType.CanonicalConic)) = true →
      (reachability_select constraint_list none = .ok .ecosWrapper ∧
        conic_capable .ecosWrapper = true ∧
        (∀ s : String, ¬(py_lower s = "cvxpy" ∨ py_lower s = "ecos") →
          reachability_select constraint_list (some s) = .raised)) ∧
      (∀ s : String, (py_lower s = "cvxpy" ∨ py_lower s = "ecos") →
        ∃ bk, reachability_select constraint_list (some s) = .ok bk ∧
          conic_capable bk = true)) ∧
    (constraint_list.any
        (fun c => decide (c = ConstraintType.CanonicalConic)) = false →
      reachability_select constraint_list none = .ok .qpOASESSolverWrapper ∧
      (∀ s : String, (py_lower s = "cvxpy" ∨ py_lower s = "qpoases" ∨
          py_lower s = "ecos" ∨ py_lower s = "hotqpoases") →
        ∃ bk, reachability_select constraint_list (some s) = .ok bk)) := by
  constructor
  · intro hconic
    constructor
    · refine ⟨?_, rfl, ?_⟩
      · simp only [reachability_select, hconic, if_true]
        decide
      · intro s hs
        simp only [reachability_select, hconic, if_true]
        rw [if_neg hs]
    · intro s hs
      rcases hs with hs | hs
      · refine ⟨.cvxpyWrapper, ?_, rfl⟩
        simp only [reachability_select, hconic, if_true]
        rw [if_pos (Or.inl hs)]
        unfold dispatch_solver
        rw [hs]
        decide
      · refine ⟨.ecosWrapper, ?_, rfl⟩
        simp only [reachability_select, hconic, if_true]
        rw [if_pos (Or.inr hs)]
        unfold dispatch_solver
        rw [hs]
        decide
  · intro hconic
    constructor
    · simp only [reachability_select, hconic, Bool.false_eq_true, if_false]
      decide
    · intro s hs
      have hsel : reachability_select constraint_list (some s) =
          if py_lower s = "cvxpy" ∨ py_lower s = "qpoases" ∨
              py_lower s = "ecos" ∨ py_lower s = "hotqpoases" then
            dispatch_solver s
          else .raised := by
        simp only [reachability_select, hconic, Bool.false_eq_true, if_false]
      rw [hsel, if_pos hs]
      unfold dispatch_solver
      rcases hs with hs | hs | hs | hs <;> rw [hs]
      · exact ⟨.cvxpyWrapper, by decide⟩
      · exact ⟨.qpOASESSolverWrapper, by decide⟩
      · exact ⟨.ecosWrapper, by decide⟩
      · exact ⟨.hotqpOASESSolverWrapper, by decide⟩

theorem c8_witness :
    reachability_select [ConstraintType.CanonicalConic] (some "qpOASES") =
        .raised ∧
      reachability_select [ConstraintType.CanonicalConic] none =
        .ok .ecosWrapper ∧
      reachability_select [] none = .ok .qpOASESSolverWrapper := by
  have h1 := c8_backend_selection [ConstraintType.CanonicalConic]
  have h2 := c8_backend_selection []
  exact ⟨(h1.1 (by decide)).1.2.2 "qpOASES" (by decide),
    (h1.1 (by decide)).1.1, (h2.2 (by decide)).1⟩
